import Mathlib

/-!
Verification of the record transformation and schema-materialization engine of
the ke2psql repository (ke2sql/legacy/keemu/base.py, class KeemuBaseMixin).

The Python source is shallowly embedded: raw records are association lists of
field values, Python dicts are association lists with insert-or-overwrite
semantics, the streaming loop of KeemuBaseMixin.records is a structurally
recursive function over the finite list of parsed records, and Python
exceptions (AttributeError) are modelled with Except.
-/

namespace Ke2sql

/-- Python-level exceptions that can be raised by the embedded code. -/
inductive PyErr where
  | attributeError
deriving DecidableEq

/-- A field value carried by a parsed KE EMu record: either a single string or
a list of strings (multi-valued fields). -/
inductive Value where
  | str (s : String)
  | list (l : List String)
deriving DecidableEq

/-- Python truthiness for a field value: non-empty string / non-empty list. -/
def Value.truthy : Value → Bool
  | .str s => !s.data.isEmpty
  | .list l => !l.isEmpty

/-- ASCII lower-casing of one character (str.lower on the flag values). -/
def charLower (c : Char) : Char :=
  if c.isUpper then Char.ofNat (c.toNat + 32) else c

/-- Python str.lower, on the ASCII range the flag field uses. -/
def toLowerStr (s : String) : String :=
  String.mk (s.data.map charLower)

/-- Python truthiness of an optional value (None is falsy). -/
def optTruthy : Option Value → Bool
  | Option.none => false
  | some v => v.truthy

/-- Lookup in a Python dict represented as an association list with unique
keys (first match wins; keys are unique by construction via dictSet). -/
def dictGet {α : Type} : List (String × α) → String → Option α
  | [], _ => Option.none
  | (k, v) :: rest, key => if k = key then some v else dictGet rest key

/-- Python dict assignment d[key] = v: overwrite in place if the key exists,
otherwise append at the end (Python dicts preserve insertion order). -/
def dictSet {α : Type} : List (String × α) → String → α → List (String × α)
  | [], key, v => [(key, v)]
  | (k, w) :: rest, key, v =>
    if k = key then (k, v) :: rest else (k, w) :: dictSet rest key v

/-- Modelled from the spec: a Raw Record produced by the parser
(ke2sql.lib.parser, which is not under src/).  Per the spec, records are
attribute-addressable and "may lack any given attribute (absence must be
tolerated, yielding an absent value rather than an error)", so attribute
access yields an Option, with none for an absent field. -/
structure Record where
  fields : List (String × Value)
deriving DecidableEq

/-- Attribute access on a raw record; absent fields yield none.  This also
embeds Python getattr(record, f, None). -/
def Record.get (r : Record) (f : String) : Option Value :=
  dictGet r.fields f

/-- KeemuBaseMixin._is_web_publishable:
record.AdmPublishWebNoPasswordFlag.lower() == 'y'.
If the attribute is absent the record yields None and None.lower() raises
AttributeError; likewise a list value has no lower() method. -/
def isWebPublishable (r : Record) : Except PyErr Bool :=
  match r.get "AdmPublishWebNoPasswordFlag" with
  | some (Value.str s) => Except.ok (toLowerStr s == "y")
  | some (Value.list _) => Except.error PyErr.attributeError
  | Option.none => Except.error PyErr.attributeError

/-- One entry of the KeemuBaseMixin.filters dict: a source field name and the
list of (operator, comparison value) pairs configured for it. -/
structure FilterRule where
  field : String
  preds : List ((Option Value → Value → Bool) × Value)

/-- Inner loop of KeemuBaseMixin._apply_filters over one field's
(operator, value) pairs: return False on the first failing pair. -/
def applyPreds (v : Option Value) : List ((Option Value → Value → Bool) × Value) → Bool
  | [] => true
  | (op, fv) :: rest => if op v fv then applyPreds v rest else false

/-- KeemuBaseMixin._apply_filters: for each configured field resolve the
record value (absent gives None) and test every (operator, value) pair,
returning False as soon as one pair fails, True if all pass. -/
def applyFilters (rules : List FilterRule) (r : Record) : Bool :=
  match rules with
  | [] => true
  | rule :: rest =>
    if applyPreds (r.get rule.field) rule.preds then applyFilters rest r else false

/-- Instrumented variant of applyPreds that also counts how many operator
applications were evaluated before returning. -/
def applyPredsCount (v : Option Value) :
    List ((Option Value → Value → Bool) × Value) → Bool × Nat
  | [] => (true, 0)
  | (op, fv) :: rest =>
    if op v fv then
      let p := applyPredsCount v rest
      (p.1, p.2 + 1)
    else (false, 1)

/-- Instrumented variant of applyFilters counting evaluated operator
applications (to express the short-circuit behaviour of the Python loop). -/
def applyFiltersCount (rules : List FilterRule) (r : Record) : Bool × Nat :=
  match rules with
  | [] => (true, 0)
  | rule :: rest =>
    let p := applyPredsCount (r.get rule.field) rule.preds
    if p.1 then
      let q := applyFiltersCount rest r
      (q.1, p.2 + q.2)
    else (false, p.2)

/-- The outcomes of every configured (operator, value) pair on a record, in
the evaluation order of the Python loops. -/
def flatRules (rules : List FilterRule) (r : Record) : List Bool :=
  rules.flatMap fun rule => rule.preds.map fun p => p.1 (r.get rule.field) p.2

/-- Short-circuit evaluation over a list of booleans, returning the overall
result and the number of entries inspected. -/
def shortCount : List Bool → Bool × Nat
  | [] => (true, 0)
  | b :: rest =>
    if b then
      let p := shortCount rest
      (p.1, p.2 + 1)
    else (false, 1)

/-- Prefix check on character lists (helper for the substring test). -/
def startsWithList : List Char → List Char → Bool
  | [], _ => true
  | _ :: _, [] => false
  | n :: ns, h :: hs => n == h && startsWithList ns hs

/-- Substring occurrence on character lists (helper for Python `in`). -/
def hasSubList (needle : List Char) : List Char → Bool
  | [] => startsWithList needle []
  | h :: t => startsWithList needle (h :: t) || hasSubList needle t

/-- KeemuBaseMixin._column_is_array: the Python substring test
'[]' in col_def. -/
def columnIsArray (colDef : String) : Bool :=
  hasSubList "[]".data colDef.data

/-- The maximal prefix of ASCII uppercase letters of a character list. -/
def takeWhileUpper : List Char → List Char
  | [] => []
  | c :: cs => if c.isUpper then c :: takeWhileUpper cs else []

/-- The regex (^[A-Z]+(\[\])?) of KeemuBaseMixin.get_column_types applied
with re.match: the longest prefix of ASCII uppercase letters (at least one),
followed by an optional literal bracket pair; none when there is no match. -/
def matchTypeRegex (s : String) : Option String :=
  let cs := s.data
  let letters := takeWhileUpper cs
  if letters.isEmpty then Option.none
  else if startsWithList "[]".data (cs.drop letters.length) then
    some (String.mk (letters ++ "[]".data))
  else some (String.mk letters)

/-- KeemuBaseMixin.get_column_types: map each (column_name, column_def) to
(column_name, matched type token); a definition the regex cannot match makes
group(1) raise AttributeError (None.group). -/
def getColumnTypes : List (String × String) → Except PyErr (List (String × String))
  | [] => Except.ok []
  | (n, d) :: rest =>
    match matchTypeRegex d with
    | Option.none => Except.error PyErr.attributeError
    | some t =>
      match getColumnTypes rest with
      | Except.error e => Except.error e
      | Except.ok ts => Except.ok ((n, t) :: ts)

/-- KeemuBaseMixin.ensure_indexes, abstracted from the DB cursor: the list of
(column_name, index_method) pairs of the CREATE INDEX statements issued, in
order.  The irn and properties columns are skipped; array columns get GIN,
all others BTREE. -/
def ensureIndexes (columns : List (String × String)) :
    Except PyErr (List (String × String)) :=
  match getColumnTypes columns with
  | Except.error e => Except.error e
  | Except.ok types =>
    Except.ok ((types.filter fun p => !(p.1 = "irn" || p.1 = "properties")).map
      fun p => (p.1, if columnIsArray p.2 then "GIN" else "BTREE"))

/-- The state built by KeemuBaseMixin.__init__ plus the luigi parameters the
methods read. -/
structure Mixin where
  table : String
  columns : List (String × String)
  metadataFields : List (String × String)
  propertyFields : List (String × String)
  arrayFields : List String
  filters : List FilterRule
  date : Int
  limit : Option Int

/-- KeemuBaseMixin.__init__: partition the declared field mappings into
metadata fields (alias is a declared column name) and property fields (the
rest), and compute the array-typed column names from get_column_types; a
regex failure there raises out of the constructor. -/
def initMixin (table : String) (columns : List (String × String))
    (fieldList : List (String × String)) (filters : List FilterRule)
    (date : Int) (limit : Option Int) : Except PyErr Mixin :=
  match getColumnTypes columns with
  | Except.error e => Except.error e
  | Except.ok types =>
    let names := columns.map Prod.fst
    Except.ok
      { table := table
        columns := columns
        metadataFields := fieldList.filter fun f => names.contains f.2
        propertyFields := fieldList.filter fun f => !names.contains f.2
        arrayFields := (types.filter fun p => columnIsArray p.2).map Prod.fst
        filters := filters
        date := date
        limit := limit }

/-- One step of the dict comprehension in KeemuBaseMixin.get_properties:
insert the alias when the resolved value is truthy. -/
def propStep (r : Record) (acc : List (String × Value)) (p : String × String) :
    List (String × Value) :=
  match r.get p.1 with
  | some v => if v.truthy then dictSet acc p.2 v else acc
  | Option.none => acc

/-- KeemuBaseMixin.get_properties: the dict of property-field aliases whose
resolved record value is truthy. -/
def getProperties (m : Mixin) (r : Record) : List (String × Value) :=
  m.propertyFields.foldl (propStep r) []

/-- A value stored in the transformed row dict. -/
inductive RowVal where
  | null
  | val (v : Value)
  | int (n : Int)
  | props (p : List (String × Value))
deriving DecidableEq

/-- Coerce an optional record value into a row entry (None stays null). -/
def ofOptValue : Option Value → RowVal
  | Option.none => RowVal.null
  | some v => RowVal.val v

/-- The value record_to_dict ends up storing for one metadata field mapping:
the resolved record value, wrapped into a one-element list when it is truthy,
the alias is array-typed, and the value is not already a list. -/
def metaValue (m : Mixin) (r : Record) (ke aliasName : String) : RowVal :=
  match r.get ke with
  | Option.none => RowVal.null
  | some v =>
    if v.truthy && m.arrayFields.contains aliasName then
      match v with
      | Value.str s => RowVal.val (Value.list [s])
      | Value.list l => RowVal.val (Value.list l)
    else RowVal.val v

/-- One metadata-field assignment of KeemuBaseMixin.record_to_dict. -/
def mdStep (m : Mixin) (r : Record) (d : List (String × RowVal))
    (p : String × String) : List (String × RowVal) :=
  dictSet d p.2 (metaValue m r p.1 p.2)

/-- KeemuBaseMixin.record_to_dict: seed the dict with irn, properties and
import_date, then assign every metadata field alias in declaration order. -/
def recordToDict (m : Mixin) (r : Record) : List (String × RowVal) :=
  m.metadataFields.foldl (mdStep m r)
    [("irn", ofOptValue (r.get "irn")),
     ("properties", RowVal.props (getProperties m r)),
     ("import_date", RowVal.int m.date)]

/-- The Python test `if self.limit and self.record_count >= self.limit`:
limit is truthy (not None, non-zero) and the running count has reached it. -/
def limitReached (limit : Option Int) (count : Nat) : Bool :=
  match limit with
  | Option.none => false
  | some n => decide (n ≠ 0) && decide (n ≤ (count : Int))

/-- Result of running KeemuBaseMixin.records over a full export stream:
the rows yielded, the records handed to delete_record, the records on which
_apply_filters was invoked (instrumentation for the gate ordering), the
final record_count and insert_count, and the exception that aborted the
stream, if any. -/
structure RunResult where
  rows : List (List (String × RowVal))
  deleted : List Record
  filtered : List Record
  seen : Nat
  inserted : Nat
  error : Option PyErr
deriving DecidableEq

/-- The rows yielded for one record: the transformed dict when the record is
admitted (publishable and passing all filters), nothing otherwise. -/
def rowsOf (m : Mixin) (r : Record) (pub : Bool) : List (List (String × RowVal)) :=
  if pub && applyFilters m.filters r then [recordToDict m r] else []

/-- The records handed to delete_record for one record: the record itself
unless it is admitted. -/
def delsOf (m : Mixin) (r : Record) (pub : Bool) : List Record :=
  if pub && applyFilters m.filters r then [] else [r]

/-- Instrumentation: the records on which _apply_filters is invoked while
handling one record (Python and-short-circuit: only when the publishability
gate returned True). -/
def flOf (r : Record) (pub : Bool) : List Record :=
  if pub then [r] else []

/-- The insert_count increment for one record. -/
def insOf (m : Mixin) (r : Record) (pub : Bool) : Nat :=
  if pub && applyFilters m.filters r then 1 else 0

/-- Prepend the outputs of one processed record to the result of the rest of
the stream. -/
def mergeResult (rw : List (List (String × RowVal))) (dl fl : List Record)
    (ins : Nat) (res : RunResult) : RunResult :=
  ⟨rw ++ res.rows, dl ++ res.deleted, fl ++ res.filtered,
   res.seen, ins + res.inserted, res.error⟩

/-- The loop of KeemuBaseMixin.records, starting from a given record_count:
bump the count, evaluate the publishability gate (an exception aborts the
stream), then either yield the transformed dict or delete the record, and
stop when the limit is reached. -/
def runFrom (m : Mixin) : Nat → List Record → RunResult
  | count, [] => ⟨[], [], [], count, 0, Option.none⟩
  | count, r :: rest =>
    match isWebPublishable r with
    | Except.error e => ⟨[], [], [], count + 1, 0, some e⟩
    | Except.ok pub =>
      if limitReached m.limit (count + 1) then
        ⟨rowsOf m r pub, delsOf m r pub, flOf r pub, count + 1, insOf m r pub, Option.none⟩
      else
        mergeResult (rowsOf m r pub) (delsOf m r pub) (flOf r pub) (insOf m r pub)
          (runFrom m (count + 1) rest)

/-- KeemuBaseMixin.records on a fresh task instance (record_count starts
at zero). -/
def processRecords (m : Mixin) (recs : List Record) : RunResult :=
  runFrom m 0 recs

/-- Whether the publishability gate evaluates to True on a record. -/
def pubOkB (r : Record) : Bool :=
  match isWebPublishable r with
  | Except.ok b => b
  | Except.error _ => false

/-- Whether a record passes both admission gates without an exception. -/
def admitsB (m : Mixin) (r : Record) : Bool :=
  pubOkB r && applyFilters m.filters r

/-- Modelled from the spec: luigi.task.task_id_str (external library, not
under src/), a stable identity string computed from the task family (the
table name) and the string dict of its significant parameters. -/
def taskIdStr (table : String) (params : List (String × String)) : String :=
  table ++ "_" ++ String.intercalate "_" (params.map fun p => p.1 ++ "=" ++ p.2)

/-- Modelled from the spec: luigi Task.to_str_params with only_significant,
for KeemuBaseMixin's parameters: date is significant, limit is declared with
significant=False in the source, so only_significant drops it. -/
def toStrParams (onlySignificant : Bool) (date : Int) (limit : Option Int) :
    List (String × String) :=
  if onlySignificant then [("date", toString date)]
  else
    [("date", toString date),
     ("limit", match limit with | Option.none => "None" | some n => toString n)]

/-- KeemuBaseMixin.__init__: self.task_id = task_id_str(self.table,
self.to_str_params(only_significant=True)). -/
def mixinTaskId (m : Mixin) : String :=
  taskIdStr m.table (toStrParams true m.date m.limit)

/-- The column list declared on KeemuBaseMixin itself. -/
def baseColumns : List (String × String) :=
  [("irn", "INTEGER PRIMARY KEY"),
   ("created", "TIMESTAMP DEFAULT CURRENT_TIMESTAMP"),
   ("modified", "TIMESTAMP"),
   ("deleted", "TIMESTAMP"),
   ("properties", "JSONB"),
   ("import_date", "INTEGER")]

/-- Example module schema: the base columns plus the array-typed column of
the spec scenario ("locations" declared "TEXT[]"). -/
def egColumns : List (String × String) :=
  baseColumns ++ [("locations", "TEXT[]")]

/-- Example field mappings: one metadata field (its alias is the declared
column "locations") and one property field. -/
def egFields : List (String × String) :=
  [("loc", "locations"), ("note", "collector_note")]

/-- Example module built exactly the way KeemuBaseMixin.__init__ builds its
state (the error branch is unreachable on these inputs). -/
def egMixin : Mixin :=
  match initMixin "etest" egColumns egFields [] 20240101 Option.none with
  | Except.ok m => m
  | Except.error _ =>
    ⟨"", [], [], [], [], [], 0, Option.none⟩

/-- The same module instantiated with a different (non-significant) limit. -/
def egMixinLim : Mixin :=
  match initMixin "etest" egColumns egFields [] 20240101 (some 5) with
  | Except.ok m => m
  | Except.error _ =>
    ⟨"", [], [], [], [], [], 0, Option.none⟩

/-- The column types computed for the example schema. -/
def egTypes : List (String × String) :=
  [("irn", "INTEGER"), ("created", "TIMESTAMP"), ("modified", "TIMESTAMP"),
   ("deleted", "TIMESTAMP"), ("properties", "JSONB"),
   ("import_date", "INTEGER"), ("locations", "TEXT[]")]

/-- A record whose publishability flag field is absent. -/
def egRecNoFlag : Record := ⟨[("irn", Value.str "1")]⟩

/-- An otherwise admissible record that lacks the mandatory irn field. -/
def egRecNoIrn : Record := ⟨[("AdmPublishWebNoPasswordFlag", Value.str "Y")]⟩

/-- An admissible record whose array-column source field holds the empty
string (present but falsy). -/
def egRecEmptyLoc : Record :=
  ⟨[("AdmPublishWebNoPasswordFlag", Value.str "y"), ("irn", Value.str "2"),
    ("loc", Value.str ""), ("note", Value.str "")]⟩

/-- A record whose publishability flag is present but negative. -/
def egRecN : Record :=
  ⟨[("AdmPublishWebNoPasswordFlag", Value.str "N"), ("irn", Value.str "3")]⟩

/-- A fully populated admissible record (spec scenario values). -/
def egRecFull : Record :=
  ⟨[("AdmPublishWebNoPasswordFlag", Value.str "Y"), ("irn", Value.str "1"),
    ("loc", Value.str "Room 3"), ("note", Value.str "rare specimen")]⟩

/-- The number of records the loop of KeemuBaseMixin.records consumes from a
stream of the given length when the running count starts at the given value:
all of them when the limit is falsy (None or 0), and otherwise it stops as
soon as the count reaches the limit, the limit-reaching record included. -/
def cap (limit : Option Int) (count len : Nat) : Nat :=
  match limit with
  | Option.none => len
  | some n => if n = 0 then len else min len (max 1 (n - (count : Int)).toNat)

/-- The example module with a testing limit of two records. -/
def egMixin2 : Mixin := { egMixin with limit := some 2 }

/-- An equality filter operator (the kind configured in the filters dict of
concrete modules, compared against the resolved record value). -/
def egOpEq : Option Value → Value → Bool := fun v c => v == some c

/-- Example filter configuration: two fields with one predicate each. -/
def egFilters : List FilterRule :=
  [{ field := "status", preds := [(egOpEq, Value.str "verified")] },
   { field := "kind", preds := [(egOpEq, Value.str "image")] }]

/-- A publishable record that passes the first filter rule and fails the
second one (the "kind" field is absent, so its value resolves to None). -/
def egRecVerified : Record :=
  ⟨[("AdmPublishWebNoPasswordFlag", Value.str "Y"), ("status", Value.str "verified")]⟩

/-- Decidable equality for embedded Python results. -/
instance exceptDecEq {ε α : Type} [DecidableEq ε] [DecidableEq α] :
    DecidableEq (Except ε α)
  | Except.ok a, Except.ok b =>
    if h : a = b then Decidable.isTrue (by rw [h]) else Decidable.isFalse (by simp [h])
  | Except.ok _, Except.error _ => Decidable.isFalse (by simp)
  | Except.error _, Except.ok _ => Decidable.isFalse (by simp)
  | Except.error e, Except.error f =>
    if h : e = f then Decidable.isTrue (by rw [h]) else Decidable.isFalse (by simp [h])

/-! ## Helper lemmas about the dict embedding -/

theorem dictGet_dictSet_self {α : Type} (d : List (String × α)) (k : String) (v : α) :
    dictGet (dictSet d k v) k = some v := by
  induction d with
  | nil => simp [dictGet, dictSet]
  | cons hd tl ih =>
    obtain ⟨k0, w⟩ := hd
    by_cases h : k0 = k
    · subst h
      simp [dictGet, dictSet]
    · simp [dictGet, dictSet, h, ih]

theorem dictGet_dictSet_ne {α : Type} (d : List (String × α)) (k k0 : String) (v : α)
    (h : k0 ≠ k) : dictGet (dictSet d k v) k0 = dictGet d k0 := by
  have hne : k ≠ k0 := Ne.symm h
  induction d with
  | nil => simp [dictGet, dictSet, hne]
  | cons hd tl ih =>
    obtain ⟨k1, w⟩ := hd
    by_cases h1 : k1 = k
    · subst h1
      simp [dictGet, dictSet, hne]
    · simp [dictGet, dictSet, h1, ih]

theorem dictGet_dictSet_isSome {α : Type} (d : List (String × α)) (k0 k : String) (v : α) :
    (dictGet (dictSet d k0 v) k).isSome = true ↔
      k = k0 ∨ (dictGet d k).isSome = true := by
  by_cases h : k = k0
  · subst h
    simp [dictGet_dictSet_self]
  · rw [dictGet_dictSet_ne d k0 k v h]
    simp [h]

theorem dictGet_none_iff {α : Type} (l : List (String × α)) (f : String) :
    dictGet l f = Option.none ↔ ∀ v, (f, v) ∉ l := by
  induction l with
  | nil => simp [dictGet]
  | cons hd tl ih =>
    obtain ⟨k, w⟩ := hd
    by_cases h : k = f
    · subst h
      constructor
      · intro h1
        simp [dictGet] at h1
      · intro h1
        exact absurd (List.mem_cons_self _ _) (h1 w)
    · rw [show dictGet ((k, w) :: tl) f = dictGet tl f by simp [dictGet, h]]
      rw [ih]
      constructor
      · intro h1 v hv
        rcases List.mem_cons.mp hv with heq | hmem
        · exact h (congrArg Prod.fst heq).symm
        · exact h1 v hmem
      · intro h1 v hv
        exact h1 v (List.mem_cons_of_mem _ hv)

/-! ## Helper lemmas about record_to_dict and get_properties -/

theorem foldl_mdStep_notMem (m : Mixin) (r : Record) (fs : List (String × String))
    (d0 : List (String × RowVal)) (k : String) (h : ∀ p ∈ fs, p.2 ≠ k) :
    dictGet (fs.foldl (mdStep m r) d0) k = dictGet d0 k := by
  induction fs generalizing d0 with
  | nil => simp
  | cons hd tl ih =>
    simp only [List.foldl_cons]
    rw [ih _ fun p hp => h p (List.mem_cons_of_mem _ hp)]
    exact dictGet_dictSet_ne _ _ _ _ (fun hk => h hd (List.mem_cons_self _ _) hk.symm)

theorem recordToDict_get_of_mem (m : Mixin) (r : Record) (ke k : String)
    (hmem : (ke, k) ∈ m.metadataFields)
    (hnd : (m.metadataFields.map Prod.snd).Nodup) :
    dictGet (recordToDict m r) k = some (metaValue m r ke k) := by
  obtain ⟨fs1, fs2, hsplit⟩ := List.append_of_mem hmem
  unfold recordToDict
  rw [hsplit]
  rw [List.foldl_append]
  simp only [List.foldl_cons]
  have hk2 : ∀ p ∈ fs2, p.2 ≠ k := by
    intro p hp
    have := hnd
    rw [hsplit] at this
    simp only [List.map_append, List.map_cons] at this
    have h2 := (List.nodup_append.mp this).2.1
    rw [List.nodup_cons] at h2
    intro hpk
    exact h2.1 (hpk ▸ List.mem_map_of_mem Prod.snd hp)
  rw [foldl_mdStep_notMem m r fs2 _ k hk2]
  unfold mdStep
  exact dictGet_dictSet_self _ _ _

theorem recordToDict_get_notMem (m : Mixin) (r : Record) (k : String)
    (h : ∀ p ∈ m.metadataFields, p.2 ≠ k) :
    dictGet (recordToDict m r) k =
      dictGet [("irn", ofOptValue (r.get "irn")),
               ("properties", RowVal.props (getProperties m r)),
               ("import_date", RowVal.int m.date)] k := by
  unfold recordToDict
  exact foldl_mdStep_notMem m r _ _ k h

theorem dictGet_propStep_isSome (r : Record) (acc : List (String × Value))
    (ke a k : String) :
    (dictGet (propStep r acc (ke, a)) k).isSome = true ↔
      ((k = a ∧ optTruthy (r.get ke) = true) ∨ (dictGet acc k).isSome = true) := by
  unfold propStep
  cases hget : r.get ke with
  | none => simp [optTruthy]
  | some v =>
    by_cases hv : v.truthy
    · simp only [hv, if_true]
      rw [dictGet_dictSet_isSome]
      simp [optTruthy, hv]
    · simp [hv, optTruthy]

theorem dictGet_foldl_propStep_isSome (r : Record) (fs : List (String × String))
    (acc : List (String × Value)) (k : String) :
    (dictGet (fs.foldl (propStep r) acc) k).isSome = true ↔
      (dictGet acc k).isSome = true ∨
        ∃ p, p ∈ fs ∧ p.2 = k ∧ optTruthy (r.get p.1) = true := by
  induction fs generalizing acc with
  | nil => simp
  | cons hd tl ih =>
    obtain ⟨ke, a⟩ := hd
    simp only [List.foldl_cons]
    rw [ih, dictGet_propStep_isSome]
    constructor
    · intro hcase
      rcases hcase with (⟨hk, ht⟩ | hacc) | ⟨p, hp, hpk, hpt⟩
      · exact Or.inr ⟨(ke, a), List.mem_cons_self _ _, hk.symm, ht⟩
      · exact Or.inl hacc
      · exact Or.inr ⟨p, List.mem_cons_of_mem _ hp, hpk, hpt⟩
    · intro hcase
      rcases hcase with hacc | ⟨p, hp, hpk, hpt⟩
      · exact Or.inl (Or.inr hacc)
      · rcases List.mem_cons.mp hp with heq | hmem
        · subst heq
          exact Or.inl (Or.inl ⟨hpk.symm, hpt⟩)
        · exact Or.inr ⟨p, hmem, hpk, hpt⟩

/-! ## Helper lemmas about the filter gate -/

theorem applyPredsCount_fst (v : Option Value)
    (ps : List ((Option Value → Value → Bool) × Value)) :
    (applyPredsCount v ps).1 = applyPreds v ps := by
  induction ps with
  | nil => rfl
  | cons hd tl ih =>
    obtain ⟨op, fv⟩ := hd
    by_cases h : op v fv
    · simp [applyPredsCount, applyPreds, h, ih]
    · simp [applyPredsCount, applyPreds, h]

theorem applyFiltersCount_fst (rules : List FilterRule) (r : Record) :
    (applyFiltersCount rules r).1 = applyFilters rules r := by
  induction rules with
  | nil => rfl
  | cons hd tl ih =>
    by_cases h : applyPreds (r.get hd.field) hd.preds
    · simp [applyFiltersCount, applyFilters, applyPredsCount_fst, h, ih]
    · simp [applyFiltersCount, applyFilters, applyPredsCount_fst, h]

theorem shortCount_append (l1 l2 : List Bool) :
    shortCount (l1 ++ l2) =
      if (shortCount l1).1 then ((shortCount l2).1, (shortCount l1).2 + (shortCount l2).2)
      else shortCount l1 := by
  induction l1 with
  | nil => simp [shortCount]
  | cons b tl ih =>
    by_cases hb : b
    · subst hb
      simp only [List.cons_append, shortCount, if_true]
      simp only [List.append_eq]
      rw [ih]
      by_cases h1 : (shortCount tl).1
      · simp [h1]
        omega
      · simp [h1]
    · simp at hb
      subst hb
      simp [shortCount]

theorem applyPredsCount_eq_shortCount (v : Option Value)
    (ps : List ((Option Value → Value → Bool) × Value)) :
    applyPredsCount v ps = shortCount (ps.map fun p => p.1 v p.2) := by
  induction ps with
  | nil => rfl
  | cons hd tl ih =>
    obtain ⟨op, fv⟩ := hd
    by_cases h : op v fv
    · simp [applyPredsCount, shortCount, h, ih]
    · simp [applyPredsCount, shortCount, h]

theorem applyFiltersCount_eq_shortCount (rules : List FilterRule) (r : Record) :
    applyFiltersCount rules r = shortCount (flatRules rules r) := by
  induction rules with
  | nil => rfl
  | cons hd tl ih =>
    have hsplit : flatRules (hd :: tl) r =
        (hd.preds.map fun p => p.1 (r.get hd.field) p.2) ++ flatRules tl r := rfl
    rw [hsplit, shortCount_append, ← applyPredsCount_eq_shortCount, ← ih]
    simp only [applyFiltersCount]
    by_cases h : (applyPredsCount (r.get hd.field) hd.preds).1
    · simp [h]
    · simp only [Bool.not_eq_true] at h
      simp [h, Prod.ext_iff]

theorem shortCount_fst (l : List Bool) : (shortCount l).1 = l.all id := by
  induction l with
  | nil => rfl
  | cons b tl ih =>
    by_cases hb : b
    · subst hb
      simp [shortCount, ih]
    · simp at hb
      subst hb
      simp [shortCount]

theorem shortCount_of_all (l : List Bool) (h : l.all id = true) :
    (shortCount l).2 = l.length := by
  induction l with
  | nil => rfl
  | cons b tl ih =>
    simp only [List.all_cons, Bool.and_eq_true, id] at h
    obtain ⟨hb, htl⟩ := h
    subst hb
    simp [shortCount, ih htl]

theorem shortCount_of_not_all (l : List Bool) (h : l.all id = false) :
    ∃ k, (shortCount l).2 = k + 1 ∧ l.getD k true = false ∧
      ∀ j, j < k → l.getD j true = true := by
  induction l with
  | nil => simp at h
  | cons b tl ih =>
    by_cases hb : b
    · subst hb
      simp only [List.all_cons, id, Bool.true_and] at h
      obtain ⟨k, hk, hkd, hkj⟩ := ih h
      refine ⟨k + 1, ?_, ?_, ?_⟩
      · simp [shortCount, hk]
      · simpa using hkd
      · intro j hj
        cases j with
        | zero => simp
        | succ j0 =>
          have := hkj j0 (by omega)
          simpa using this
    · simp at hb
      subst hb
      exact ⟨0, by simp [shortCount], by simp, by omega⟩

/-! ## Helper lemmas about init, column types and keys -/

theorem initMixin_ok (table : String) (columns : List (String × String))
    (fieldList : List (String × String)) (filters : List FilterRule)
    (date : Int) (limit : Option Int) (m : Mixin)
    (h : initMixin table columns fieldList filters date limit = Except.ok m) :
    ∃ types, getColumnTypes columns = Except.ok types ∧
      m.table = table ∧ m.columns = columns ∧
      m.metadataFields = fieldList.filter (fun f => (columns.map Prod.fst).contains f.2) ∧
      m.propertyFields = fieldList.filter (fun f => !(columns.map Prod.fst).contains f.2) ∧
      m.arrayFields = (types.filter fun p => columnIsArray p.2).map Prod.fst ∧
      m.filters = filters ∧ m.date = date ∧ m.limit = limit := by
  unfold initMixin at h
  cases hg : getColumnTypes columns with
  | error e => rw [hg] at h; exact absurd h (by simp)
  | ok types =>
    rw [hg] at h
    simp only [Except.ok.injEq] at h
    subst h
    exact ⟨types, rfl, rfl, rfl, rfl, rfl, rfl, rfl, rfl, rfl⟩

theorem getColumnTypes_map_fst (columns types : List (String × String))
    (h : getColumnTypes columns = Except.ok types) :
    types.map Prod.fst = columns.map Prod.fst := by
  induction columns generalizing types with
  | nil =>
    simp only [getColumnTypes, Except.ok.injEq] at h
    subst h
    rfl
  | cons hd tl ih =>
    obtain ⟨n, d⟩ := hd
    simp only [getColumnTypes] at h
    cases hm : matchTypeRegex d with
    | none => rw [hm] at h; exact absurd h (by simp)
    | some t =>
      rw [hm] at h
      cases hg : getColumnTypes tl with
      | error e => rw [hg] at h; exact absurd h (by simp)
      | ok ts =>
        rw [hg] at h
        simp only [Except.ok.injEq] at h
        subst h
        simp [ih ts hg]

theorem eq_of_mem_keysNodup {α : Type} {l : List (String × α)}
    (h : (l.map Prod.fst).Nodup) {n : String} {a b : α}
    (ha : (n, a) ∈ l) (hb : (n, b) ∈ l) : a = b := by
  induction l with
  | nil => simp at ha
  | cons hd tl ih =>
    obtain ⟨k, v⟩ := hd
    simp only [List.map_cons, List.nodup_cons] at h
    rcases List.mem_cons.mp ha with hha | hha
    · rcases List.mem_cons.mp hb with hhb | hhb
      · injection hha with h1 h2
        injection hhb with h3 h4
        rw [h2, h4]
      · injection hha with h1 h2
        exfalso
        apply h.1
        rw [← h1]
        exact List.mem_map_of_mem Prod.fst hhb
    · rcases List.mem_cons.mp hb with hhb | hhb
      · injection hhb with h1 h2
        exfalso
        apply h.1
        rw [← h1]
        exact List.mem_map_of_mem Prod.fst hha
      · exact ih h.2 hha hhb

theorem length_filter_pair {α : Type} (p : α → Bool) (l : List α) :
    (l.filter p).length + (l.filter fun a => !p a).length = l.length := by
  induction l with
  | nil => rfl
  | cons hd tl ih =>
    by_cases h : p hd
    · simp [List.filter_cons, h]
      omega
    · simp [List.filter_cons, h]
      omega

theorem pubOkB_true_iff (r : Record) :
    pubOkB r = true ↔ isWebPublishable r = Except.ok true := by
  unfold pubOkB
  cases h : isWebPublishable r with
  | ok b => cases b <;> simp
  | error e => simp

/-! ## Step lemmas for the records loop -/

theorem runFrom_nil (m : Mixin) (count : Nat) :
    runFrom m count [] = ⟨[], [], [], count, 0, Option.none⟩ := rfl

theorem runFrom_cons_error (m : Mixin) (count : Nat) (r : Record) (rest : List Record)
    (e : PyErr) (h : isWebPublishable r = Except.error e) :
    runFrom m count (r :: rest) = ⟨[], [], [], count + 1, 0, some e⟩ := by
  unfold runFrom
  rw [h]

theorem runFrom_cons_ok_stop (m : Mixin) (count : Nat) (r : Record) (rest : List Record)
    (pub : Bool) (h : isWebPublishable r = Except.ok pub)
    (hl : limitReached m.limit (count + 1) = true) :
    runFrom m count (r :: rest) =
      ⟨rowsOf m r pub, delsOf m r pub, flOf r pub, count + 1, insOf m r pub,
       Option.none⟩ := by
  unfold runFrom
  rw [h]
  simp [hl]

theorem runFrom_cons_ok_go (m : Mixin) (count : Nat) (r : Record) (rest : List Record)
    (pub : Bool) (h : isWebPublishable r = Except.ok pub)
    (hl : limitReached m.limit (count + 1) = false) :
    runFrom m count (r :: rest) =
      mergeResult (rowsOf m r pub) (delsOf m r pub) (flOf r pub) (insOf m r pub)
        (runFrom m (count + 1) rest) := by
  conv_lhs => rw [runFrom]
  rw [h, hl]
  simp

theorem runFrom_filtered_pub (m : Mixin) :
    ∀ (recs : List Record) (count : Nat) (r : Record),
      r ∈ (runFrom m count recs).filtered → isWebPublishable r = Except.ok true := by
  intro recs
  induction recs with
  | nil =>
    intro count r h
    rw [runFrom_nil] at h
    simp at h
  | cons hd tl ih =>
    intro count r h
    cases hp : isWebPublishable hd with
    | error e =>
      rw [runFrom_cons_error m count hd tl e hp] at h
      simp at h
    | ok pub =>
      by_cases hl : limitReached m.limit (count + 1)
      · rw [runFrom_cons_ok_stop m count hd tl pub hp hl] at h
        simp only [flOf] at h
        cases pub with
        | false => simp at h
        | true =>
          simp at h
          subst h
          exact hp
      · rw [runFrom_cons_ok_go m count hd tl pub hp (by simpa using hl)] at h
        simp only [mergeResult, flOf] at h
        rcases List.mem_append.mp h with h1 | h1
        · cases pub with
          | false => simp at h1
          | true =>
            simp at h1
            subst h1
            exact hp
        · exact ih (count + 1) r h1

/-! ## The cap on the number of records the loop consumes -/

theorem cap_nil (limit : Option Int) (count : Nat) : cap limit count 0 = 0 := by
  unfold cap
  cases limit with
  | none => rfl
  | some n =>
    by_cases h : n = 0
    · simp [h]
    · simp [h]

theorem cap_stop (n : Int) (count len : Nat) (hn : n ≠ 0)
    (hle : n ≤ (count : Int) + 1) : cap (some n) count (len + 1) = 1 := by
  unfold cap
  simp only [hn, if_false]
  omega

theorem cap_go (limit : Option Int) (count len : Nat)
    (hl : limitReached limit (count + 1) = false) :
    cap limit count (len + 1) = cap limit (count + 1) len + 1 := by
  unfold cap
  cases limit with
  | none => rfl
  | some n =>
    unfold limitReached at hl
    by_cases h0 : n = 0
    · simp [h0]
    · simp only [h0, decide_not, if_false]
      have hlt : ¬(n ≤ (count : Int) + 1) := by
        intro hc
        have : ((count + 1 : Nat) : Int) = (count : Int) + 1 := by push_cast; ring
        rw [this] at hl
        simp [h0, hc] at hl
      omega

/-! ## Characterization of a completed (error-free) run -/

theorem runFrom_ok_spec (m : Mixin) :
    ∀ (recs : List Record) (count : Nat),
      (runFrom m count recs).error = Option.none →
      (runFrom m count recs).seen = count + cap m.limit count recs.length ∧
      (runFrom m count recs).rows =
        ((recs.take (cap m.limit count recs.length)).filter (admitsB m)).map
          (recordToDict m) ∧
      (runFrom m count recs).deleted =
        (recs.take (cap m.limit count recs.length)).filter (fun r => !admitsB m r) ∧
      (runFrom m count recs).inserted =
        ((recs.take (cap m.limit count recs.length)).filter (admitsB m)).length := by
  intro recs
  induction recs with
  | nil =>
    intro count h
    rw [runFrom_nil]
    simp [cap_nil]
  | cons hd tl ih =>
    intro count h
    have hlen : (hd :: tl).length = tl.length + 1 := List.length_cons hd tl
    cases hp : isWebPublishable hd with
    | error e =>
      rw [runFrom_cons_error m count hd tl e hp] at h
      simp at h
    | ok pub =>
      have hpb : pubOkB hd = pub := by
        unfold pubOkB
        rw [hp]
      have hadm : admitsB m hd = (pub && applyFilters m.filters hd) := by
        unfold admitsB
        rw [hpb]
      by_cases hl : limitReached m.limit (count + 1)
      · rw [runFrom_cons_ok_stop m count hd tl pub hp hl]
        have hcap : cap m.limit count (tl.length + 1) = 1 := by
          unfold limitReached at hl
          cases hm : m.limit with
          | none => rw [hm] at hl; simp at hl
          | some n =>
            rw [hm] at hl
            simp only [Bool.and_eq_true, decide_eq_true_eq] at hl
            apply cap_stop n count tl.length hl.1
            have hc := hl.2
            have : ((count + 1 : Nat) : Int) = (count : Int) + 1 := by push_cast; ring
            rw [this] at hc
            exact hc
        rw [hlen, hcap]
        rw [show (hd :: tl).take 1 = [hd] by simp]
        by_cases hb : admitsB m hd = true
        · have hb2 : (pub && applyFilters m.filters hd) = true := by
            rw [← hadm]
            exact hb
          simp [rowsOf, delsOf, insOf, List.filter_cons, hb, hb2]
        · have hb0 : admitsB m hd = false := by simpa using hb
          have hb2 : (pub && applyFilters m.filters hd) = false := by
            rw [← hadm]
            exact hb0
          simp [rowsOf, delsOf, insOf, List.filter_cons, hb0, hb2]
      · have hl2 : limitReached m.limit (count + 1) = false := by simpa using hl
        rw [runFrom_cons_ok_go m count hd tl pub hp hl2] at h ⊢
        simp only [mergeResult] at h ⊢
        obtain ⟨hseen, hrows, hdel, hins⟩ := ih (count + 1) h
        have hcap : cap m.limit count (tl.length + 1) =
            cap m.limit (count + 1) tl.length + 1 := cap_go m.limit count tl.length hl2
        rw [hlen, hcap]
        rw [List.take_succ_cons]
        have hacase : (admitsB m hd = true ∧ (pub && applyFilters m.filters hd) = true) ∨
            (admitsB m hd = false ∧ (pub && applyFilters m.filters hd) = false) := by
          by_cases hb : admitsB m hd = true
          · exact Or.inl ⟨hb, by rw [← hadm]; exact hb⟩
          · have hb0 : admitsB m hd = false := by simpa using hb
            exact Or.inr ⟨hb0, by rw [← hadm]; exact hb0⟩
        refine ⟨?_, ?_, ?_, ?_⟩
        · rw [hseen]
          omega
        · rw [hrows]
          rcases hacase with ⟨hb, hb2⟩ | ⟨hb, hb2⟩
          · simp [rowsOf, List.filter_cons, hb, hb2]
          · simp [rowsOf, List.filter_cons, hb, hb2]
        · rw [hdel]
          rcases hacase with ⟨hb, hb2⟩ | ⟨hb, hb2⟩
          · simp [delsOf, List.filter_cons, hb, hb2]
          · simp [delsOf, List.filter_cons, hb, hb2]
        · rw [hins]
          rcases hacase with ⟨hb, hb2⟩ | ⟨hb, hb2⟩
          · simp [insOf, List.filter_cons, hb, hb2]
            omega
          · simp [insOf, List.filter_cons, hb, hb2]

theorem cap_le (limit : Option Int) (count len : Nat) : cap limit count len ≤ len := by
  unfold cap
  cases limit with
  | none => exact Nat.le_refl len
  | some n =>
    by_cases h : n = 0
    · simp [h]
    · simp only [h, if_false]
      omega

/-! ## Claim C1 -/

/-- C1 counterexample: a record whose web-publishable flag field is absent is
not rejected by the admission check; the check raises an AttributeError
(None.lower()), which aborts the stream instead of tombstoning the record. -/
theorem c1_counterexample :
    Record.get egRecNoFlag "AdmPublishWebNoPasswordFlag" = Option.none ∧
    isWebPublishable egRecNoFlag = Except.error PyErr.attributeError ∧
    (processRecords egMixin [egRecNoFlag]).error = some PyErr.attributeError ∧
    (processRecords egMixin [egRecNoFlag]).deleted = [] ∧
    (processRecords egMixin [egRecNoFlag]).rows = [] := by
  decide

/-- C1 (corrected): when the flag field is present with a string value, the
admission check rejects the record unless the value, lower-cased, equals the
affirmative marker y, and a rejected record is handed to the delete path;
when the flag field is absent the check raises an AttributeError instead of
rejecting. -/
theorem c1_amended :
    (∀ (r : Record) (s : String),
      r.get "AdmPublishWebNoPasswordFlag" = some (Value.str s) →
      isWebPublishable r = Except.ok (toLowerStr s == "y")) ∧
    (∀ (r : Record) (s : String) (m : Mixin) (count : Nat) (rest : List Record),
      r.get "AdmPublishWebNoPasswordFlag" = some (Value.str s) →
      toLowerStr s ≠ "y" →
      pubOkB r = false ∧ admitsB m r = false ∧
      ∃ tl, (runFrom m count (r :: rest)).deleted = r :: tl) ∧
    (∀ r : Record, r.get "AdmPublishWebNoPasswordFlag" = Option.none →
      isWebPublishable r = Except.error PyErr.attributeError) := by
  refine ⟨?_, ?_, ?_⟩
  · intro r s hflag
    unfold isWebPublishable
    rw [hflag]
  · intro r s m count rest hflag hne
    have hbeq : (toLowerStr s == "y") = false := by
      rw [beq_eq_false_iff_ne]
      exact hne
    have h0 : isWebPublishable r = Except.ok (toLowerStr s == "y") := by
      unfold isWebPublishable
      rw [hflag]
    have hpub : isWebPublishable r = Except.ok false := by
      rw [h0, hbeq]
    have hpb : pubOkB r = false := by
      unfold pubOkB
      rw [hpub]
    have hab : admitsB m r = false := by
      unfold admitsB
      rw [hpb]
      rfl
    refine ⟨hpb, hab, ?_⟩
    by_cases hl : limitReached m.limit (count + 1)
    · rw [runFrom_cons_ok_stop m count r rest false hpub hl]
      exact ⟨[], by simp [delsOf]⟩
    · rw [runFrom_cons_ok_go m count r rest false hpub (by simpa using hl)]
      exact ⟨(runFrom m (count + 1) rest).deleted, by simp [mergeResult, delsOf]⟩
  · intro r hflag
    unfold isWebPublishable
    rw [hflag]

/-- C1 witness: the amended statement evaluated on concrete records - a
record flagged N is rejected and tombstoned, a record with no flag errors. -/
theorem c1_witness :
    isWebPublishable egRecN = Except.ok (toLowerStr "N" == "y") ∧
    pubOkB egRecN = false ∧ admitsB egMixin egRecN = false ∧
    (∃ tl, (runFrom egMixin 0 [egRecN]).deleted = egRecN :: tl) ∧
    isWebPublishable egRecNoFlag = Except.error PyErr.attributeError := by
  have h1 := c1_amended.1 egRecN "N" (by decide)
  have h2 := c1_amended.2.1 egRecN "N" egMixin 0 [] (by decide) (by decide)
  have h3 := c1_amended.2.2 egRecNoFlag (by decide)
  exact ⟨h1, h2.1, h2.2.1, h2.2.2, h3⟩

/-! ## Claim C2 -/

/-- C2 counterexample: a streamed record that lacks the mandatory irn field
is neither an isolated error nor skipped: the stream reports no error and the
record is transformed and yielded as a Row whose irn is null. -/
theorem c2_counterexample :
    Record.get egRecNoIrn "irn" = Option.none ∧
    (processRecords egMixin [egRecNoIrn]).error = Option.none ∧
    (processRecords egMixin [egRecNoIrn]).rows =
      [[("irn", RowVal.null), ("properties", RowVal.props []),
        ("import_date", RowVal.int 20240101), ("locations", RowVal.null)]] ∧
    (processRecords egMixin [egRecNoIrn]).deleted = [] := by
  decide

/-- C2 (corrected): a streamed record lacking the mandatory irn attribute
does not fail at all: if admitted, record_to_dict resolves irn to None, the
Row (with a null irn) is yielded, it is not skipped, and processing of the
remaining records continues unaffected. -/
theorem c2_amended (m : Mixin) (r : Record)
    (hadm : admitsB m r = true) (hirn : r.get "irn" = Option.none)
    (hmd : ∀ p ∈ m.metadataFields, p.2 ≠ "irn") :
    dictGet (recordToDict m r) "irn" = some RowVal.null ∧
    ∀ (count : Nat) (rest : List Record),
      limitReached m.limit (count + 1) = false →
      (runFrom m count (r :: rest)).rows =
        recordToDict m r :: (runFrom m (count + 1) rest).rows ∧
      (runFrom m count (r :: rest)).error = (runFrom m (count + 1) rest).error := by
  have hsplit : pubOkB r = true ∧ applyFilters m.filters r = true := by
    unfold admitsB at hadm
    simpa using hadm
  have hpub : isWebPublishable r = Except.ok true := (pubOkB_true_iff r).mp hsplit.1
  constructor
  · rw [recordToDict_get_notMem m r "irn" hmd]
    simp [dictGet, hirn, ofOptValue]
  · intro count rest hl
    rw [runFrom_cons_ok_go m count r rest true hpub hl]
    constructor
    · simp [mergeResult, rowsOf, hsplit.2]
    · simp [mergeResult]

/-- C2 witness: the amended statement evaluated on a concrete admitted record
with no irn - its Row carries a null irn and the stream continues. -/
theorem c2_witness :
    dictGet (recordToDict egMixin egRecNoIrn) "irn" = some RowVal.null ∧
    (runFrom egMixin 0 [egRecNoIrn]).rows =
      recordToDict egMixin egRecNoIrn :: (runFrom egMixin 1 []).rows ∧
    (runFrom egMixin 0 [egRecNoIrn]).error = (runFrom egMixin 1 []).error := by
  have h := c2_amended egMixin egRecNoIrn (by decide) (by decide) (by decide)
  exact ⟨h.1, (h.2 0 [] (by decide)).1, (h.2 0 [] (by decide)).2⟩

/-! ## Claim C3 -/

/-- C3 counterexample: on an admitted record, a metadata field with an
array-typed alias whose resolved value is the present-but-empty string is
stored unwrapped as the scalar empty string, not as a one-element sequence
as the claim requires for every present value. -/
theorem c3_counterexample :
    ("loc", "locations") ∈ egMixin.metadataFields ∧
    "locations" ∈ egMixin.arrayFields ∧
    admitsB egMixin egRecEmptyLoc = true ∧
    Record.get egRecEmptyLoc "loc" = some (Value.str "") ∧
    dictGet (recordToDict egMixin egRecEmptyLoc) "locations" =
      some (RowVal.val (Value.str "")) ∧
    RowVal.val (Value.str "") ≠ RowVal.val (Value.list [""]) := by
  decide

/-- C3 (corrected): for a metadata field mapping with an array-typed alias,
an absent value is stored as null (never an empty sequence), a present,
truthy (non-empty) scalar value is wrapped into a one-element sequence, a
present empty-string value is kept unwrapped as the scalar empty string, and
a present list value is kept as is. -/
theorem c3_amended (m : Mixin) (r : Record) (ke k : String)
    (hmem : (ke, k) ∈ m.metadataFields)
    (hnd : (m.metadataFields.map Prod.snd).Nodup)
    (harr : m.arrayFields.contains k = true) :
    (r.get ke = Option.none →
      dictGet (recordToDict m r) k = some RowVal.null) ∧
    (∀ s, r.get ke = some (Value.str s) → s ≠ "" →
      dictGet (recordToDict m r) k = some (RowVal.val (Value.list [s]))) ∧
    (r.get ke = some (Value.str "") →
      dictGet (recordToDict m r) k = some (RowVal.val (Value.str ""))) ∧
    (∀ l, r.get ke = some (Value.list l) →
      dictGet (recordToDict m r) k = some (RowVal.val (Value.list l))) := by
  have hget := recordToDict_get_of_mem m r ke k hmem hnd
  have hmemArr : k ∈ m.arrayFields := by simpa using harr
  refine ⟨?_, ?_, ?_, ?_⟩
  · intro hv
    rw [hget]
    simp [metaValue, hv]
  · intro s hv hs
    have hdata : s.data.isEmpty = false := by
      cases hd : s.data with
      | nil =>
        exfalso
        apply hs
        have h1 : s = String.mk s.data := rfl
        rw [h1, hd]
      | cons c cs => rfl
    rw [hget]
    simp [metaValue, hv, Value.truthy, hdata, hmemArr]
  · intro hv
    rw [hget]
    simp [metaValue, hv, Value.truthy]
  · intro l hv
    rw [hget]
    simp [metaValue, hv]

/-- C3 witness: the amended statement evaluated on concrete records - the
scalar value Room 3 is wrapped into a one-element sequence, and an absent
value yields a null entry. -/
theorem c3_witness :
    dictGet (recordToDict egMixin egRecFull) "locations" =
      some (RowVal.val (Value.list ["Room 3"])) ∧
    dictGet (recordToDict egMixin egRecNoIrn) "locations" = some RowVal.null := by
  have h1 := c3_amended egMixin egRecFull "loc" "locations"
    (by decide) (by decide) (by decide)
  have h2 := c3_amended egMixin egRecNoIrn "loc" "locations"
    (by decide) (by decide) (by decide)
  exact ⟨h1.2.1 "Room 3" (by decide) (by decide), h2.1 (by decide)⟩

/-! ## Claim C4 -/

/-- C4: for a module built by the constructor, the properties dict of a
transformed Row contains exactly the property-field aliases whose resolved
record value is truthy (non-empty, non-absent), it never contains a declared
column name, and the Row stores it under the properties key. -/
theorem c4_properties (table : String) (cols fieldList : List (String × String))
    (filters : List FilterRule) (date : Int) (limit : Option Int) (m : Mixin)
    (h : initMixin table cols fieldList filters date limit = Except.ok m)
    (r : Record) (k : String) :
    ((dictGet (getProperties m r) k).isSome = true ↔
      ∃ p, p ∈ m.propertyFields ∧ p.2 = k ∧ optTruthy (r.get p.1) = true) ∧
    ((dictGet (getProperties m r) k).isSome = true →
      (cols.map Prod.fst).contains k = false) ∧
    ((∀ p ∈ m.metadataFields, p.2 ≠ "properties") →
      dictGet (recordToDict m r) "properties" =
        some (RowVal.props (getProperties m r))) := by
  obtain ⟨types, hty, htab, hcols, hmd, hpd, hrest⟩ :=
    initMixin_ok table cols fieldList filters date limit m h
  have hiff : (dictGet (getProperties m r) k).isSome = true ↔
      ∃ p, p ∈ m.propertyFields ∧ p.2 = k ∧ optTruthy (r.get p.1) = true := by
    unfold getProperties
    rw [dictGet_foldl_propStep_isSome]
    simp [dictGet]
  refine ⟨hiff, ?_, ?_⟩
  · intro hk
    obtain ⟨p, hp, hpk, hpt⟩ := hiff.mp hk
    rw [hpd] at hp
    have hc : (!(cols.map Prod.fst).contains p.2) = true := (List.mem_filter.mp hp).2
    rw [hpk] at hc
    simpa using hc
  · intro hmdp
    rw [recordToDict_get_notMem m r "properties" hmdp]
    rfl

/-- C4 witness: the statement evaluated on the example module and a concrete
record - the truthy property value is present, its alias is not a column,
and the Row holds the properties dict. -/
theorem c4_witness :
    (dictGet (getProperties egMixin egRecFull) "collector_note").isSome = true ∧
    (egColumns.map Prod.fst).contains "collector_note" = false ∧
    dictGet (recordToDict egMixin egRecFull) "properties" =
      some (RowVal.props (getProperties egMixin egRecFull)) := by
  have h := c4_properties "etest" egColumns egFields [] 20240101 Option.none
    egMixin rfl egRecFull "collector_note"
  refine ⟨?_, ?_, h.2.2 (by decide)⟩
  · exact h.1.mpr ⟨("note", "collector_note"), by decide, rfl, by decide⟩
  · exact h.2.1 (h.1.mpr ⟨("note", "collector_note"), by decide, rfl, by decide⟩)

/-! ## Claim C5 -/

/-- C5: ensure_indexes never derives an index for the irn or properties
columns and chooses between GIN and BTREE only; under distinct column names,
a column receives a GIN index exactly when its derived type is array-typed
and a BTREE index otherwise; on the declared example schema the derived
classification agrees with the presence of the array marker in the full
declaration, and the emitted plan is as expected. -/
theorem c5_indexes :
    (∀ cols out, ensureIndexes cols = Except.ok out →
      ∀ q, q ∈ out → q.1 ≠ "irn" ∧ q.1 ≠ "properties" ∧
        (q.2 = "GIN" ∨ q.2 = "BTREE")) ∧
    (∀ cols types out n t,
      getColumnTypes cols = Except.ok types →
      ensureIndexes cols = Except.ok out →
      (cols.map Prod.fst).Nodup →
      (n, t) ∈ types → n ≠ "irn" → n ≠ "properties" →
      (((n, "GIN") ∈ out ↔ columnIsArray t = true) ∧
       ((n, "BTREE") ∈ out ↔ columnIsArray t = false))) ∧
    getColumnTypes egColumns = Except.ok egTypes ∧
    ensureIndexes egColumns = Except.ok
      [("created", "BTREE"), ("modified", "BTREE"), ("deleted", "BTREE"),
       ("import_date", "BTREE"), ("locations", "GIN")] ∧
    ((egColumns.zip egTypes).all
      (fun pq => columnIsArray pq.1.2 == columnIsArray pq.2.2)) = true ∧
    ((egColumns.filter fun p => columnIsArray p.2).map Prod.fst = ["locations"]) := by
  have hout : ∀ cols types, getColumnTypes cols = Except.ok types →
      ∀ out, ensureIndexes cols = Except.ok out →
      out = (types.filter fun p => !(p.1 = "irn" || p.1 = "properties")).map
        (fun p => (p.1, if columnIsArray p.2 then "GIN" else "BTREE")) := by
    intro cols types hty out hens
    unfold ensureIndexes at hens
    rw [hty] at hens
    simp only [Except.ok.injEq] at hens
    exact hens.symm
  refine ⟨?_, ?_, by decide, by decide, by decide, by decide⟩
  · intro cols out hens q hq
    cases hty : getColumnTypes cols with
    | error e =>
      unfold ensureIndexes at hens
      rw [hty] at hens
      exact absurd hens (by simp)
    | ok types =>
      rw [hout cols types hty out hens] at hq
      obtain ⟨p, hp, hpe⟩ := List.mem_map.mp hq
      have hcond : (!(p.1 = "irn" || p.1 = "properties")) = true :=
        (List.mem_filter.mp hp).2
      simp only [Bool.not_eq_true', Bool.or_eq_false_iff, decide_eq_false_iff_not]
        at hcond
      rw [← hpe]
      refine ⟨by simpa using hcond.1, by simpa using hcond.2, ?_⟩
      by_cases hc : columnIsArray p.2
      · simp [hc]
      · simp [hc]
  · intro cols types out n t hty hens hnd hmem hn1 hn2
    rw [hout cols types hty out hens]
    have hndty : (types.map Prod.fst).Nodup := by
      rw [getColumnTypes_map_fst cols types hty]
      exact hnd
    have hcond : (!(n = "irn" || n = "properties")) = true := by
      simp [hn1, hn2]
    constructor
    · constructor
      · intro hg
        obtain ⟨p, hp, hpe⟩ := List.mem_map.mp hg
        have hpty := List.mem_of_mem_filter hp
        have hfst : p.1 = n := (Prod.mk.injEq _ _ _ _).mp hpe |>.1
        have hpt : p = (n, p.2) := by
          rw [← hfst]
        have heq : p.2 = t := by
          apply eq_of_mem_keysNodup hndty (hpt ▸ hpty) hmem
        have hsnd : (if columnIsArray p.2 then "GIN" else "BTREE") = "GIN" :=
          (Prod.mk.injEq _ _ _ _).mp hpe |>.2
        by_cases hc : columnIsArray p.2
        · rw [← heq]
          exact hc
        · rw [if_neg hc] at hsnd
          exact absurd hsnd (by decide)
      · intro hc
        apply List.mem_map.mpr
        refine ⟨(n, t), List.mem_filter.mpr ⟨hmem, hcond⟩, ?_⟩
        simp [hc]
    · constructor
      · intro hg
        obtain ⟨p, hp, hpe⟩ := List.mem_map.mp hg
        have hpty := List.mem_of_mem_filter hp
        have hfst : p.1 = n := (Prod.mk.injEq _ _ _ _).mp hpe |>.1
        have hpt : p = (n, p.2) := by
          rw [← hfst]
        have heq : p.2 = t := by
          apply eq_of_mem_keysNodup hndty (hpt ▸ hpty) hmem
        have hsnd : (if columnIsArray p.2 then "GIN" else "BTREE") = "BTREE" :=
          (Prod.mk.injEq _ _ _ _).mp hpe |>.2
        by_cases hc : columnIsArray p.2
        · rw [if_pos hc] at hsnd
          exact absurd hsnd (by decide)
        · rw [← heq]
          simpa using hc
      · intro hc
        apply List.mem_map.mpr
        refine ⟨(n, t), List.mem_filter.mpr ⟨hmem, hcond⟩, ?_⟩
        simp [hc]

/-- C5 witness: the universal parts evaluated on the example schema - the
array column gets GIN, a scalar column gets BTREE, and no derived index
touches irn or properties. -/
theorem c5_witness :
    (("locations", "GIN") ∈
      [("created", "BTREE"), ("modified", "BTREE"), ("deleted", "BTREE"),
       ("import_date", "BTREE"), ("locations", "GIN")]) ∧
    (("created", "BTREE") ∈
      [("created", "BTREE"), ("modified", "BTREE"), ("deleted", "BTREE"),
       ("import_date", "BTREE"), ("locations", "GIN")]) ∧
    ("locations" ≠ "irn" ∧ "locations" ≠ "properties" ∧
      ("GIN" = "GIN" ∨ "GIN" = "BTREE")) := by
  have h := c5_indexes
  have hty : getColumnTypes egColumns = Except.ok egTypes := h.2.2.1
  have hens : ensureIndexes egColumns = Except.ok
      [("created", "BTREE"), ("modified", "BTREE"), ("deleted", "BTREE"),
       ("import_date", "BTREE"), ("locations", "GIN")] := h.2.2.2.1
  refine ⟨?_, ?_, ?_⟩
  · exact ((h.2.1 egColumns egTypes _ "locations" "TEXT[]" hty hens (by decide)
      (by decide) (by decide) (by decide)).1).mpr (by decide)
  · exact ((h.2.1 egColumns egTypes _ "created" "TIMESTAMP" hty hens (by decide)
      (by decide) (by decide) (by decide)).2).mpr (by decide)
  · exact h.1 egColumns _ hens ("locations", "GIN") (by decide)

/-! ## Claim C7 -/

/-- C7: the task identity is a function of the table name and the
significant parameters only (the date); two units over the same table with
the same date share the identity string no matter what their non-significant
limit values are. -/
theorem c7_task_identity (m1 m2 : Mixin) (htab : m1.table = m2.table)
    (hdate : m1.date = m2.date) : mixinTaskId m1 = mixinTaskId m2 := by
  unfold mixinTaskId toStrParams
  rw [htab, hdate]
  simp

/-- C7 witness: the identity computed for the example module with no limit
equals the identity computed with limit five. -/
theorem c7_witness :
    egMixin.limit = Option.none ∧ egMixinLim.limit = some 5 ∧
    mixinTaskId egMixin = mixinTaskId egMixinLim := by
  refine ⟨by decide, by decide, ?_⟩
  exact c7_task_identity egMixin egMixinLim (by decide) (by decide)

/-! ## Claim C9 -/

/-- C6: the filter gate admits a record exactly when every configured
(operator, value) pair evaluates to true on the resolved field value, an
absent field resolves to the None sentinel, evaluation short-circuits at the
first failing pair (exactly the pairs up to and including it are evaluated,
all earlier ones true), and the filter gate is only ever invoked on records
whose publishability gate returned True. -/
theorem c6_filters :
    (∀ (rules : List FilterRule) (r : Record),
      applyFilters rules r = (flatRules rules r).all id) ∧
    (∀ (r : Record) (f : String),
      (r.get f = Option.none ↔ ∀ v, (f, v) ∉ r.fields)) ∧
    (∀ (rules : List FilterRule) (r : Record),
      applyFilters rules r = true →
      (applyFiltersCount rules r).2 = (flatRules rules r).length) ∧
    (∀ (rules : List FilterRule) (r : Record),
      applyFilters rules r = false →
      ∃ k, (applyFiltersCount rules r).2 = k + 1 ∧
        (flatRules rules r).getD k true = false ∧
        ∀ j, j < k → (flatRules rules r).getD j true = true) ∧
    (∀ (m : Mixin) (count : Nat) (recs : List Record) (r : Record),
      r ∈ (runFrom m count recs).filtered → isWebPublishable r = Except.ok true) := by
  have key1 : ∀ (rules : List FilterRule) (r : Record),
      applyFilters rules r = (flatRules rules r).all id := by
    intro rules r
    rw [← applyFiltersCount_fst, applyFiltersCount_eq_shortCount, shortCount_fst]
  refine ⟨key1, ?_, ?_, ?_, ?_⟩
  · intro r f
    unfold Record.get
    exact dictGet_none_iff r.fields f
  · intro rules r h
    rw [applyFiltersCount_eq_shortCount]
    apply shortCount_of_all
    rw [← key1 rules r]
    exact h
  · intro rules r h
    rw [applyFiltersCount_eq_shortCount]
    apply shortCount_of_not_all
    rw [← key1 rules r]
    exact h
  · intro m count recs r h
    exact runFrom_filtered_pub m recs count r h

/-- C6 witness: the gate statement evaluated on a concrete filter
configuration and record - the second rule's absent field resolves to None,
its predicate fails, exactly two of the two pairs were evaluated with the
first one true, and the record is rejected. -/
theorem c6_witness :
    applyFilters egFilters egRecVerified = (flatRules egFilters egRecVerified).all id ∧
    Record.get egRecVerified "kind" = Option.none ∧
    (∃ k, (applyFiltersCount egFilters egRecVerified).2 = k + 1 ∧
      (flatRules egFilters egRecVerified).getD k true = false ∧
      ∀ j, j < k → (flatRules egFilters egRecVerified).getD j true = true) ∧
    isWebPublishable egRecFull = Except.ok true := by
  have h := c6_filters
  refine ⟨h.1 egFilters egRecVerified, ?_, ?_, ?_⟩
  · refine (h.2.1 egRecVerified "kind").mpr ?_
    intro v
    simp [egRecVerified]
  · exact h.2.2.2.1 egFilters egRecVerified (by decide)
  · exact h.2.2.2.2 egMixin 0 [egRecFull] egRecFull (by decide)

/-! ## Claim C8 -/

/-- C8 counterexample: the claim as stated fails on a stream containing a
record whose publishability flag field is absent - that record is processed
(counted), fails admission in the spec's sense, yet takes neither of the two
paths: no Row is yielded and the deletion operation is never invoked for it;
the publishability check raises an AttributeError and the stream aborts. -/
theorem c8_counterexample :
    (processRecords egMixin [egRecNoFlag]).seen = 1 ∧
    (processRecords egMixin [egRecNoFlag]).rows = [] ∧
    (processRecords egMixin [egRecNoFlag]).deleted = [] ∧
    (processRecords egMixin [egRecNoFlag]).error = some PyErr.attributeError := by
  decide

/-- C8 (corrected): on a run in which the publishability gate raises no
exception (no processed record lacks a string flag), the loop consumes some
prefix of the stream and partitions it - the yielded rows are exactly the
transformed dicts of the admitted records in order, the deleted records are
exactly the rejected ones in order, every rejected processed record is
handed to delete_record, every admitted one yields its row, and the two path
counts add up to the number of records processed; a record on which the gate
raises takes neither path and aborts the stream instead. -/
theorem c8_partition (m : Mixin) (recs : List Record)
    (herr : (processRecords m recs).error = Option.none) :
    ∃ k, k ≤ recs.length ∧ (processRecords m recs).seen = k ∧
      (processRecords m recs).rows =
        ((recs.take k).filter (admitsB m)).map (recordToDict m) ∧
      (processRecords m recs).deleted =
        (recs.take k).filter (fun r => !admitsB m r) ∧
      (∀ r, r ∈ recs.take k → admitsB m r = false →
        r ∈ (processRecords m recs).deleted) ∧
      (∀ r, r ∈ recs.take k → admitsB m r = true →
        recordToDict m r ∈ (processRecords m recs).rows) ∧
      (processRecords m recs).rows.length + (processRecords m recs).deleted.length
        = k := by
  obtain ⟨hseen, hrows, hdel, hins⟩ := runFrom_ok_spec m recs 0 herr
  unfold processRecords
  refine ⟨cap m.limit 0 recs.length, cap_le m.limit 0 recs.length,
    by simpa using hseen, hrows, hdel, ?_, ?_, ?_⟩
  · intro r hr hrej
    rw [hdel]
    exact List.mem_filter.mpr ⟨hr, by simp [hrej]⟩
  · intro r hr hadm
    rw [hrows]
    exact List.mem_map_of_mem _ (List.mem_filter.mpr ⟨hr, hadm⟩)
  · rw [hrows, hdel, List.length_map]
    have hp := length_filter_pair (admitsB m) (recs.take (cap m.limit 0 recs.length))
    rw [List.length_take] at hp
    have hle := cap_le m.limit 0 recs.length
    omega

/-- C8 witness: the partition statement evaluated on a concrete stream with
one admitted and one rejected record. -/
theorem c8_witness :
    ∃ k, k ≤ ([egRecFull, egRecN] : List Record).length ∧
      (processRecords egMixin [egRecFull, egRecN]).seen = k ∧
      (processRecords egMixin [egRecFull, egRecN]).rows =
        ((([egRecFull, egRecN] : List Record).take k).filter (admitsB egMixin)).map
          (recordToDict egMixin) ∧
      (processRecords egMixin [egRecFull, egRecN]).deleted =
        (([egRecFull, egRecN] : List Record).take k).filter
          (fun r => !admitsB egMixin r) ∧
      (∀ r, r ∈ ([egRecFull, egRecN] : List Record).take k →
        admitsB egMixin r = false →
        r ∈ (processRecords egMixin [egRecFull, egRecN]).deleted) ∧
      (∀ r, r ∈ ([egRecFull, egRecN] : List Record).take k →
        admitsB egMixin r = true →
        recordToDict egMixin r ∈ (processRecords egMixin [egRecFull, egRecN]).rows) ∧
      (processRecords egMixin [egRecFull, egRecN]).rows.length +
        (processRecords egMixin [egRecFull, egRecN]).deleted.length = k :=
  c8_partition egMixin [egRecFull, egRecN] (by decide)

/-! ## Claim C10 -/

/-- C10 counterexample: the claim as stated fails on a stream containing a
record whose flag field is absent - with limit None the claim requires the
entire stream to be consumed, but the loop aborts with an AttributeError
after the first of the two records. -/
theorem c10_counterexample :
    egMixin.limit = Option.none ∧
    (processRecords egMixin [egRecNoFlag, egRecFull]).seen = 1 ∧
    ([egRecNoFlag, egRecFull] : List Record).length = 2 ∧
    (processRecords egMixin [egRecNoFlag, egRecFull]).seen ≠
      ([egRecNoFlag, egRecFull] : List Record).length ∧
    (processRecords egMixin [egRecNoFlag, egRecFull]).error =
      some PyErr.attributeError := by
  decide

/-- C10 (corrected): on a run in which the publishability gate raises no
exception, a positive limit n stops iteration exactly after the n-th record
(counting admitted and rejected alike) when the stream is long enough, the
final record is still fully processed (the two path counts add up to the
records seen), and a limit of None or 0 applies no cap: the whole stream is
consumed; a stream on which the gate raises aborts early at the offending
record instead. -/
theorem c10_limit (m : Mixin) (recs : List Record)
    (herr : (processRecords m recs).error = Option.none) :
    (∀ n : Int, m.limit = some n → 0 < n →
      (processRecords m recs).seen = min n.toNat recs.length) ∧
    ((m.limit = Option.none ∨ m.limit = some 0) →
      (processRecords m recs).seen = recs.length) ∧
    (processRecords m recs).rows.length + (processRecords m recs).deleted.length =
      (processRecords m recs).seen := by
  obtain ⟨hseen, hrows, hdel, hins⟩ := runFrom_ok_spec m recs 0 herr
  unfold processRecords
  have hseen0 : (runFrom m 0 recs).seen = cap m.limit 0 recs.length := by
    simpa using hseen
  refine ⟨?_, ?_, ?_⟩
  · intro n hlim hn
    rw [hseen0]
    unfold cap
    rw [hlim]
    have hn0 : ¬(n = 0) := by omega
    simp only [hn0, if_false]
    omega
  · intro hlim
    rw [hseen0]
    rcases hlim with hlim | hlim
    · rw [hlim]
      rfl
    · rw [hlim]
      unfold cap
      simp
  · rw [hseen0, hrows, hdel, List.length_map]
    have hp := length_filter_pair (admitsB m) (recs.take (cap m.limit 0 recs.length))
    rw [List.length_take] at hp
    have hle := cap_le m.limit 0 recs.length
    omega

/-- C10 witness: the limit statement evaluated on the example module with
limit two over a three-record stream - exactly two records are seen and both
took one of the two paths. -/
theorem c10_witness :
    (processRecords egMixin2 [egRecFull, egRecN, egRecNoIrn]).seen =
      min (Int.toNat 2) ([egRecFull, egRecN, egRecNoIrn] : List Record).length ∧
    (processRecords egMixin2 [egRecFull, egRecN, egRecNoIrn]).rows.length +
      (processRecords egMixin2 [egRecFull, egRecN, egRecNoIrn]).deleted.length =
      (processRecords egMixin2 [egRecFull, egRecN, egRecNoIrn]).seen ∧
    (processRecords egMixin [egRecFull, egRecN, egRecNoIrn]).seen =
      ([egRecFull, egRecN, egRecNoIrn] : List Record).length := by
  have h2 := c10_limit egMixin2 [egRecFull, egRecN, egRecNoIrn] (by decide)
  have h0 := c10_limit egMixin [egRecFull, egRecN, egRecNoIrn] (by decide)
  exact ⟨h2.1 2 (by decide) (by decide), h2.2.2, h0.2.1 (Or.inl (by decide))⟩

end Ke2sql
